import Mathlib

/-!
Verification of the `gsm` (governed state machines) library against its
specification.  The Go sources are shallowly embedded: packed states are
natural numbers, closures (check / repair / guard / effect) are Lean
functions, and the build-time verifier (`verify.go`) is modelled by
executable definitions that mirror the Go control flow.
-/

namespace GSM

/-- Mirrors `VarKind` from `var.go`. -/
inductive VarKind where
  | BoolKind
  | EnumKind
  | IntKind
deriving DecidableEq, Repr

/-- Mirrors `Var` from `var.go`: a handle to a declared state variable.
`offset`/`bits` locate the bitpacked field, `domain` its number of values,
`min` the integer minimum (0 for bool/enum), `labels` the enum labels. -/
structure Var where
  name : String
  kind : VarKind
  index : Nat
  offset : Nat
  bits : Nat
  domain : Nat
  labels : List String
  min : Int
deriving DecidableEq, Repr

/-- Mirrors `bitsNeeded` from `var.go`: minimum bits for `n` distinct values. -/
def bitsNeeded (n : Nat) : Nat :=
  if n ≤ 1 then 0 else Nat.log2 (n - 1) + 1

/-- Mirrors `State.getRaw` from the state codec: shift right by the
variable's offset and mask by `2 ^ bits - 1`, written arithmetically. -/
def getRaw (s : Nat) (v : Var) : Nat :=
  (s / 2 ^ v.offset) % 2 ^ v.bits

/-- Mirrors `State.setRaw`: clear the field's bits and OR in `val & mask`.
Arithmetically: keep the low part below the field, write `val mod 2^bits`
into the field, keep the high part above the field. -/
def setRaw (s : Nat) (v : Var) (val : Nat) : Nat :=
  s % 2 ^ v.offset + (val % 2 ^ v.bits) * 2 ^ v.offset
    + s / 2 ^ (v.offset + v.bits) * 2 ^ (v.offset + v.bits)

/-- Mirrors `State.GetBool`. -/
def GetBool (s : Nat) (v : Var) : Bool := getRaw s v != 0

/-- Mirrors `State.GetInt`: raw value adjusted by the variable's minimum. -/
def GetInt (s : Nat) (v : Var) : Int := (getRaw s v : Int) + v.min

/-- Mirrors `State.SetBool`. -/
def SetBool (s : Nat) (v : Var) (val : Bool) : Nat :=
  if val then setRaw s v 1 else setRaw s v 0

/-- Mirrors `State.SetInt`: the argument is clamped into the declared range
`[min, min + domain - 1]` before the raw field is written. -/
def SetInt (s : Nat) (v : Var) (val : Int) : Nat :=
  let maxv : Int := v.min + (v.domain : Int) - 1
  let v1 : Int := if val < v.min then v.min else val
  let v2 : Int := if v1 > maxv then maxv else v1
  setRaw s v (v2 - v.min).toNat

/-- The loop of `Var.enumIndex`: scan the labels for the first match. -/
def enumIndexGo (val : String) : List String → Nat → Option Nat
  | [], _ => none
  | l :: rest, i => if l = val then some i else enumIndexGo val rest (i + 1)

/-- Mirrors `Var.enumIndex` from `var.go`: index of the first matching
label, error (`none`) when the label is absent. -/
def enumIndex (v : Var) (val : String) : Option Nat :=
  enumIndexGo val v.labels 0

/-- Mirrors `State.Set` (enum setter); the Go method raises on an unknown
label, modelled as `none`. -/
def SetEnum (s : Nat) (v : Var) (val : String) : Option Nat :=
  (enumIndex v val).map fun idx => setRaw s v idx

/-- Mirrors `invariantDef` from the builder: named footprint + check +
repair, with the closures as Lean functions over packed states. -/
structure InvariantDef where
  name : String
  footprint : List Nat
  check : Nat → Bool
  repair : Nat → Nat

instance : Inhabited InvariantDef := ⟨⟨"", [], fun _ => true, fun s => s⟩⟩

/-- Mirrors `eventDef` from the builder: write set, optional guard, effect. -/
structure EventDef where
  name : String
  writes : List Nat
  guard : Option (Nat → Bool)
  effect : Nat → Nat

instance : Inhabited EventDef := ⟨⟨"", [], none, fun s => s⟩⟩

/-- Mirrors `Builder`: the declaration data Build consumes. -/
structure Builder where
  name : String
  vars : List Var
  invariants : List InvariantDef
  events : List EventDef
  totalBits : Nat
  independent : List (Nat × Nat)
  allIndependent : Bool

/-- Mirrors `Builder.allInvariantsHold`. -/
def allInvariantsHold (b : Builder) (s : Nat) : Bool :=
  b.invariants.all fun inv => inv.check s

/-- The loop body of `Builder.applyFirstRepair`: fire the first violated
invariant's repair in priority (declaration) order. -/
def firstRepair : List InvariantDef → Nat → Nat
  | [], s => s
  | inv :: rest, s => if inv.check s then firstRepair rest s else inv.repair s

/-- Mirrors `Builder.applyFirstRepair`. -/
def applyFirstRepair (b : Builder) (s : Nat) : Nat :=
  firstRepair b.invariants s

/-- Mirrors `Builder.applyEvent`: no-op when a guard is present and false. -/
def applyEvent (ev : EventDef) (s : Nat) : Nat :=
  match ev.guard with
  | some g => if g s then ev.effect s else s
  | none => ev.effect s

/-- Mirrors `Builder.isValidEncoding`: every field decodes to a raw value
below its domain (the in-domain check over the padded address space). -/
def isValidEncoding (b : Builder) (packed : Nat) : Bool :=
  b.vars.all fun v => getRaw packed v < v.domain

/-- The loop of `Builder.clampState` over the variable list. -/
def clampVars : List Var → Nat → Nat
  | [], s => s
  | v :: rest, s =>
      clampVars rest (if v.domain - 1 < getRaw s v then setRaw s v (v.domain - 1) else s)

/-- Mirrors `Builder.clampState`: reset any raw field value exceeding
`domain - 1` back to `domain - 1`. -/
def clampState (b : Builder) (s : Nat) : Nat :=
  clampVars b.vars s

/-- Mirrors `Builder.eventFootprint`: the union of the footprints of all
invariants whose footprint overlaps the event's write set. -/
def eventFootprint (b : Builder) (ei : Nat) : List Nat :=
  let writes := (b.events.getD ei default).writes
  b.invariants.foldl
    (fun fp inv =>
      if inv.footprint.any (fun vi => writes.contains vi) then fp ++ inv.footprint else fp)
    []

/-- Mirrors `Builder.eventsDisjoint`: the two influence sets do not meet. -/
def eventsDisjoint (b : Builder) (ei ej : Nat) : Bool :=
  (eventFootprint b ei).all fun v => !(eventFootprint b ej).contains v

/-- Mirrors the `stateCount` computation in `Builder.Build`: the product of
the variable domains. -/
def stateCount (b : Builder) : Nat :=
  b.vars.foldl (fun acc v => acc * v.domain) 1

/-- The padded address space size `2 ^ totalBits` (`packedCount` in Build). -/
def packedCount (b : Builder) : Nat := 2 ^ b.totalBits

/-- The per-state loop of `computeNormalForms`: iterate the
first-violated-invariant repair, tracking the visited set and the depth;
fail (`none`) on a revisit or when the depth exceeds the state count.
The fuel argument only makes the recursion structural: with fuel
`stateCount + 2` the depth bound always fires first. -/
def nfRun (b : Builder) (bound : Nat) : Nat → Nat → Nat → List Nat → Option (Nat × Nat)
  | 0, _, _, _ => none
  | fuel + 1, s, depth, seen =>
    if allInvariantsHold b s then some (s, depth)
    else
      if seen.contains (applyFirstRepair b s) || decide (bound < depth + 1) then none
      else nfRun b bound fuel (applyFirstRepair b s) (depth + 1) (applyFirstRepair b s :: seen)

/-- One entry of the normal-form table: identity on out-of-domain ids,
otherwise the terminal state of the repair iteration (`none` = WFC failure). -/
def nfEntry (b : Builder) (i : Nat) : Option Nat :=
  if isValidEncoding b i then
    (nfRun b (stateCount b) (stateCount b + 2) i 0 [i]).map Prod.fst
  else some i

/-- The WFC phase of `computeNormalForms` succeeds: every id in the padded
address space has a terminating repair sequence. -/
def wfcOK (b : Builder) : Bool :=
  (List.range (packedCount b)).all fun i => (nfEntry b i).isSome

/-- The normal-form table `NF[id]` as a function (defined everywhere; the
`getD` default is never reached once `wfcOK` holds). -/
def nfFun (b : Builder) (i : Nat) : Nat :=
  (nfEntry b i).getD i

/-- The post-pass of `computeNormalForms`: every in-domain state already
satisfying all invariants must be a fixed point of `NF`. -/
def postPassOK (b : Builder) : Bool :=
  (List.range (packedCount b)).all fun i =>
    !(isValidEncoding b i && allInvariantsHold b i) || (nfFun b i == i)

/-- Mirrors `computeStepTables`: `STEP[e][id] = NF(clamp(apply_event(e, id)))`
for in-domain ids, and the zero initialization elsewhere. -/
def stepFun (b : Builder) (ei : Nat) (i : Nat) : Nat :=
  if isValidEncoding b i then
    nfFun b (clampState b (applyEvent (b.events.getD ei default) i))
  else 0

/-- The upper-triangle pair list used in all-pairs mode. -/
def allPairs (n : Nat) : List (Nat × Nat) :=
  (List.range n).flatMap fun i => ((List.range n).filter fun j => i < j).map fun j => (i, j)

/-- Mirrors the pair selection in `verifyCC`: every unordered pair in
all-pairs mode, otherwise the declared pairs normalized so `i < j`. -/
def pairsToCheck (b : Builder) : List (Nat × Nat) :=
  if b.allIndependent then allPairs b.events.length
  else b.independent.map fun p => if p.2 < p.1 then (p.2, p.1) else (p.1, p.2)

/-- The brute-force state loop of `verifyCC` for one pair: every state in
the padded space that passes the in-domain mask must give the same result
under the two step orderings. -/
def ccPairBrute (b : Builder) (i j : Nat) : Bool :=
  (List.range (packedCount b)).all fun s =>
    !isValidEncoding b s || (stepFun b j (stepFun b i s) == stepFun b i (stepFun b j s))

/-- Mirrors `verifyCC` success: every selected pair is either discharged by
footprint disjointness or passes the brute-force check. -/
def ccOK (b : Builder) : Bool :=
  (pairsToCheck b).all fun p => eventsDisjoint b p.1 p.2 || ccPairBrute b p.1 p.2

/-- The size guards at the top of `Builder.Build`. -/
def sizeOK (b : Builder) : Bool :=
  decide (b.totalBits ≤ 20) && decide (stateCount b ≤ 2 ^ 20)

/-- `Builder.Build` succeeds: size guards, WFC phase, normal-form post-pass
and CC phase all pass.  Only then is a `Machine` produced. -/
def buildOK (b : Builder) : Bool :=
  sizeOK b && wfcOK b && postPassOK b && ccOK b

/-- Mirrors the construction of `Machine.events` (a Go map built by
inserting `name → index` in index order, so a later duplicate overwrites)
followed by lookup. -/
def eventIndexGo (name : String) : List EventDef → Nat → Option Nat → Option Nat
  | [], _, acc => acc
  | ev :: rest, i, acc =>
      eventIndexGo name rest (i + 1) (if ev.name = name then some i else acc)

/-- The event-name dictionary lookup used by `Machine.Apply`. -/
def eventIndexOf (b : Builder) (name : String) : Option Nat :=
  eventIndexGo name b.events 0 none

/-- Mirrors `Machine.Apply`: unknown names are an error (`none`, the Go
call-level failure); known names index the step table. -/
def MachineApply (b : Builder) (s : Nat) (event : String) : Option Nat :=
  (eventIndexOf b event).map fun ei => stepFun b ei s

/-- Mirrors `Machine.Normalize`. -/
def MachineNormalize (b : Builder) (s : Nat) : Nat := nfFun b s

/-- Mirrors `Machine.IsValid`: `nf[state.id] == state.id`. -/
def MachineIsValid (b : Builder) (s : Nat) : Bool := nfFun b s == s

/-- Sum of the declared bit widths. -/
def sumBits : List Var → Nat
  | [] => 0
  | v :: rest => v.bits + sumBits rest

/-- The canonical field layout the builder's `Bool`/`Enum`/`Int` methods
produce: consecutive offsets starting at the given one, and for each
variable `1 ≤ domain ≤ 2 ^ bits < 2 * domain` (the `bitsNeeded` width) and
`labels.length ≤ domain` (equality for enums, `0` otherwise). -/
def layoutFrom : Nat → List Var → Bool
  | _, [] => true
  | off, v :: rest =>
      (v.offset == off) && decide (1 ≤ v.domain) && decide (v.domain ≤ 2 ^ v.bits)
        && decide (2 ^ v.bits < 2 * v.domain) && decide (v.labels.length ≤ v.domain)
        && layoutFrom (off + v.bits) rest

/-- A builder whose variable list carries the canonical layout and whose
`totalBits` is the sum of the widths. -/
def layoutOK (b : Builder) : Bool :=
  layoutFrom 0 b.vars && (sumBits b.vars == b.totalBits)

/-- Mirrors the state of an `InvariantBuilder` at `Add` time: the closures
may be missing (`nil` in Go). -/
structure InvariantDecl where
  name : String
  footprint : List Nat
  check : Option (Nat → Bool)
  repair : Option (Nat → Nat)

/-- Mirrors `InvariantBuilder.Add`: the only rejections are a missing check
or a missing repair. -/
def invariantAddOK (d : InvariantDecl) : Bool :=
  d.check.isSome && d.repair.isSome

/-! Concrete machines, all declarable through the public builder API. -/

/-- The bounded-int variable `x ∈ [0, 3]` (`b.Int("x", 0, 3)`): index 0,
offset 0, width 2, domain 4. -/
def xVar : Var := ⟨"x", VarKind.IntKind, 0, 0, 2, 4, [], 0⟩

/-- Two events that overwrite `x` with different constants and no invariant
at all: both influence sets are empty, so the pair is discharged by the
disjointness rule although the events do not commute. -/
def B1 : Builder :=
  { name := "cex_disjoint",
    vars := [xVar],
    invariants := [],
    events :=
      [ ⟨"set_one", [0], none, fun s => SetInt s xVar 1⟩,
        ⟨"set_two", [0], none, fun s => SetInt s xVar 2⟩ ],
    totalBits := 2,
    independent := [],
    allIndependent := true }

/-- A trivially-true invariant watching `x`. -/
def B2inv : InvariantDef := ⟨"x_any", [0], fun _ => true, fun s => s⟩

/-- Two identical events under a trivially-true invariant watching `x`:
the influence sets meet, so the pair goes to the brute-force check, which
passes. -/
def B2 : Builder :=
  { name := "brute_pair",
    vars := [xVar],
    invariants := [B2inv],
    events :=
      [ ⟨"a_one", [0], none, fun s => SetInt s xVar 1⟩,
        ⟨"b_one", [0], none, fun s => SetInt s xVar 1⟩ ],
    totalBits := 2,
    independent := [],
    allIndependent := true }

/-- A machine whose two events disagree only when started from the
invariant-violating in-domain state `x = 3`: both events are guarded on
`x = 3`, and the invariant `x ≠ 3` (repair `x := 0`) makes that state
invalid. -/
def B3 : Builder :=
  { name := "cex_invalid_start",
    vars := [xVar],
    invariants := [⟨"x_ne_3", [0], fun s => GetInt s xVar != 3, fun s => SetInt s xVar 0⟩],
    events :=
      [ ⟨"a", [0], some (fun s => GetInt s xVar == 3), fun s => SetInt s xVar 1⟩,
        ⟨"b", [0], some (fun s => GetInt s xVar == 3), fun s => SetInt s xVar 2⟩ ],
    totalBits := 2,
    independent := [],
    allIndependent := true }

/-- A passing machine with an invariant-violating in-domain state: the
invariant `x ≠ 3` repairs to 0, one event overwrites `x` with 1, the other
is a no-op; the single pair goes to brute force and commutes everywhere. -/
def B4 : Builder :=
  { name := "pass_with_invalid",
    vars := [xVar],
    invariants := [⟨"x_ne_3", [0], fun s => GetInt s xVar != 3, fun s => SetInt s xVar 0⟩],
    events :=
      [ ⟨"set_one", [0], none, fun s => SetInt s xVar 1⟩,
        ⟨"noop", [0], none, fun s => s⟩ ],
    totalBits := 2,
    independent := [],
    allIndependent := true }

/-- The boolean variable `x` (`b.Bool("x")`): index 0, offset 0, width 1. -/
def xBool : Var := ⟨"x", VarKind.BoolKind, 0, 0, 1, 2, [], 0⟩

/-- The boolean variable `y` (`b.Bool("y")`): index 1, offset 1, width 1. -/
def yBool : Var := ⟨"y", VarKind.BoolKind, 1, 1, 1, 2, [], 0⟩

/-- An invariant with footprint `{x}` whose repair also writes `y` — a
variable outside the declared footprint. -/
def B8inv : InvariantDef :=
  ⟨"x_false", [0], fun s => !GetBool s xBool,
    fun s => SetBool (SetBool s xBool false) yBool true⟩

/-- A declaration whose invariant repair writes `y`, a variable outside the
declared footprint `{x}`. -/
def B8 : Builder :=
  { name := "out_of_footprint",
    vars := [xBool, yBool],
    invariants := [B8inv],
    events := [],
    totalBits := 2,
    independent := [],
    allIndependent := true }

/-- An enum of three labels: width 2, domain 3, so the raw code 3 is
representable but out-of-domain. -/
def eVar : Var := ⟨"color", VarKind.EnumKind, 0, 0, 2, 3, ["red", "green", "blue"], 0⟩

/-- A machine over the three-label enum, used to exercise the clamp. -/
def B7 : Builder :=
  { name := "clamp_demo",
    vars := [eVar],
    invariants := [],
    events := [],
    totalBits := 2,
    independent := [],
    allIndependent := true }

/-- A declaration with an empty event set. -/
def E9 : Builder :=
  { name := "no_events",
    vars := [xVar],
    invariants := [],
    events := [],
    totalBits := 2,
    independent := [],
    allIndependent := true }

/-! Bitfield arithmetic: reading and writing one field, interference-freedom
of disjoint fields, and range preservation. -/

theorem two_pow_pos (n : Nat) : 0 < 2 ^ n := pow_pos (by norm_num) n

theorem getRaw_lt (s : Nat) (v : Var) : getRaw s v < 2 ^ v.bits :=
  Nat.mod_lt _ (two_pow_pos _)

/-- The low-plus-field part of a `setRaw` result fits below the field's end. -/
theorem lowMid_lt (s val : Nat) (v : Var) :
    s % 2 ^ v.offset + val % 2 ^ v.bits * 2 ^ v.offset < 2 ^ (v.offset + v.bits) := by
  have h1 : s % 2 ^ v.offset < 2 ^ v.offset := Nat.mod_lt _ (two_pow_pos _)
  have h2 : val % 2 ^ v.bits < 2 ^ v.bits := Nat.mod_lt _ (two_pow_pos _)
  calc s % 2 ^ v.offset + val % 2 ^ v.bits * 2 ^ v.offset
      < 2 ^ v.offset + val % 2 ^ v.bits * 2 ^ v.offset := Nat.add_lt_add_right h1 _
    _ = (val % 2 ^ v.bits + 1) * 2 ^ v.offset := by ring
    _ ≤ 2 ^ v.bits * 2 ^ v.offset := Nat.mul_le_mul_right _ h2
    _ = 2 ^ (v.offset + v.bits) := by rw [pow_add]; ring

/-- Reading back the field just written returns `val mod 2^bits`. -/
theorem getRaw_setRaw_self (s : Nat) (v : Var) (val : Nat) :
    getRaw (setRaw s v val) v = val % 2 ^ v.bits := by
  unfold getRaw setRaw
  have hlo : s % 2 ^ v.offset < 2 ^ v.offset := Nat.mod_lt _ (two_pow_pos _)
  have hm : val % 2 ^ v.bits < 2 ^ v.bits := Nat.mod_lt _ (two_pow_pos _)
  rw [show s % 2 ^ v.offset + val % 2 ^ v.bits * 2 ^ v.offset
        + s / 2 ^ (v.offset + v.bits) * 2 ^ (v.offset + v.bits)
      = s % 2 ^ v.offset
        + (val % 2 ^ v.bits + s / 2 ^ (v.offset + v.bits) * 2 ^ v.bits) * 2 ^ v.offset
      from by rw [pow_add]; ring]
  rw [Nat.add_mul_div_right _ _ (two_pow_pos v.offset), Nat.div_eq_of_lt hlo, Nat.zero_add]
  rw [Nat.add_mul_mod_self_right]
  exact Nat.mod_eq_of_lt hm

/-- Writing a field does not change the state below any cut at or below the
field's start. -/
theorem setRaw_mod_eq (s : Nat) (v : Var) (val t : Nat) (ht : t ≤ v.offset) :
    setRaw s v val % 2 ^ t = s % 2 ^ t := by
  have hd : (2 : Nat) ^ t ∣ 2 ^ v.offset := pow_dvd_pow 2 ht
  have hd2 : (2 : Nat) ^ t ∣ 2 ^ (v.offset + v.bits) :=
    pow_dvd_pow 2 (ht.trans (Nat.le_add_right _ _))
  have h1 : val % 2 ^ v.bits * 2 ^ v.offset % 2 ^ t = 0 :=
    Nat.mod_eq_zero_of_dvd (hd.mul_left _)
  have h2 : s / 2 ^ (v.offset + v.bits) * 2 ^ (v.offset + v.bits) % 2 ^ t = 0 :=
    Nat.mod_eq_zero_of_dvd (hd2.mul_left _)
  have h3 : s % 2 ^ v.offset % 2 ^ t = s % 2 ^ t := Nat.mod_mod_of_dvd s hd
  unfold setRaw
  rw [Nat.add_mod, h2, Nat.add_zero, Nat.mod_mod_of_dvd _ (dvd_refl _),
    Nat.add_mod, h1, Nat.add_zero, Nat.mod_mod_of_dvd _ (dvd_refl _), h3]

/-- Writing a field does not change the state above any cut at or above the
field's end. -/
theorem setRaw_div_eq (s : Nat) (v : Var) (val t : Nat) (ht : v.offset + v.bits ≤ t) :
    setRaw s v val / 2 ^ t = s / 2 ^ t := by
  have hsplit : (2 : Nat) ^ t = 2 ^ (v.offset + v.bits) * 2 ^ (t - (v.offset + v.bits)) := by
    rw [← pow_add]; congr 1; omega
  rw [hsplit, ← Nat.div_div_eq_div_mul, ← Nat.div_div_eq_div_mul]
  congr 1
  unfold setRaw
  rw [Nat.add_mul_div_right _ _ (two_pow_pos _), Nat.div_eq_of_lt (lowMid_lt s val v),
    Nat.zero_add]

/-- A field read only depends on the state below a cut at or above the
field's end. -/
theorem getRaw_congr_mod (s s' : Nat) (v : Var) (t : Nat) (ht : v.offset + v.bits ≤ t)
    (h : s % 2 ^ t = s' % 2 ^ t) : getRaw s v = getRaw s' v := by
  have key : ∀ x : Nat, getRaw x v = x % 2 ^ t / 2 ^ v.offset % 2 ^ v.bits := by
    intro x
    unfold getRaw
    conv_lhs => rw [← Nat.mod_add_div x (2 ^ t)]
    rw [show (2 : Nat) ^ t * (x / 2 ^ t)
        = 2 ^ v.offset * (2 ^ (t - v.offset) * (x / 2 ^ t)) from by
      rw [← mul_assoc, ← pow_add]; congr 2; omega]
    rw [Nat.add_mul_div_left _ _ (two_pow_pos v.offset)]
    rw [show (2 : Nat) ^ (t - v.offset) * (x / 2 ^ t)
        = 2 ^ v.bits * (2 ^ (t - v.offset - v.bits) * (x / 2 ^ t)) from by
      rw [← mul_assoc, ← pow_add]; congr 2; omega]
    rw [Nat.add_mul_mod_self_left]
  rw [key s, key s', h]

/-- A field read only depends on the state above a cut at or below the
field's start. -/
theorem getRaw_congr_div (s s' : Nat) (v : Var) (t : Nat) (ht : t ≤ v.offset)
    (h : s / 2 ^ t = s' / 2 ^ t) : getRaw s v = getRaw s' v := by
  unfold getRaw
  rw [show (2 : Nat) ^ v.offset = 2 ^ t * 2 ^ (v.offset - t) from by
    rw [← pow_add]; congr 1; omega]
  rw [← Nat.div_div_eq_div_mul, ← Nat.div_div_eq_div_mul, h]

/-- Writing a field whose start is at or above another field's end leaves
the other field unchanged. -/
theorem getRaw_setRaw_of_le_offset (s : Nat) (v w : Var) (val : Nat)
    (h : v.offset + v.bits ≤ w.offset) :
    getRaw (setRaw s w val) v = getRaw s v :=
  getRaw_congr_mod _ _ v w.offset h (setRaw_mod_eq s w val w.offset le_rfl)

/-- Writing a field whose end is at or below another field's start leaves
the other field unchanged. -/
theorem getRaw_setRaw_of_ge_end (s : Nat) (v w : Var) (val : Nat)
    (h : w.offset + w.bits ≤ v.offset) :
    getRaw (setRaw s w val) v = getRaw s v :=
  getRaw_congr_div _ _ v (w.offset + w.bits) h (setRaw_div_eq s w val _ le_rfl)

/-- Writing a field inside the packed width keeps the state inside it. -/
theorem setRaw_lt (s : Nat) (v : Var) (val B : Nat) (hs : s < 2 ^ B)
    (hvB : v.offset + v.bits ≤ B) : setRaw s v val < 2 ^ B := by
  have hhi : s / 2 ^ (v.offset + v.bits) < 2 ^ (B - (v.offset + v.bits)) := by
    apply Nat.div_lt_of_lt_mul
    rw [mul_comm, ← pow_add]
    rw [show B - (v.offset + v.bits) + (v.offset + v.bits) = B from by omega]
    exact hs
  calc setRaw s v val
      < 2 ^ (v.offset + v.bits) + s / 2 ^ (v.offset + v.bits) * 2 ^ (v.offset + v.bits) :=
        Nat.add_lt_add_right (lowMid_lt s val v) _
    _ = (s / 2 ^ (v.offset + v.bits) + 1) * 2 ^ (v.offset + v.bits) := by ring
    _ ≤ 2 ^ (B - (v.offset + v.bits)) * 2 ^ (v.offset + v.bits) :=
        Nat.mul_le_mul_right _ hhi
    _ = 2 ^ B := by rw [← pow_add]; congr 1; omega

/-! Layout facts: what the canonical builder layout gives each variable. -/

theorem layoutFrom_cons {off : Nat} {v : Var} {rest : List Var}
    (h : layoutFrom off (v :: rest) = true) :
    v.offset = off ∧ 1 ≤ v.domain ∧ v.domain ≤ 2 ^ v.bits ∧ 2 ^ v.bits < 2 * v.domain
      ∧ v.labels.length ≤ v.domain ∧ layoutFrom (off + v.bits) rest = true := by
  simp only [layoutFrom, Bool.and_eq_true, beq_iff_eq, decide_eq_true_eq] at h
  tauto

theorem layoutFrom_mem_bounds {off : Nat} {vars : List Var}
    (h : layoutFrom off vars = true) {v : Var} (hv : v ∈ vars) :
    off ≤ v.offset ∧ v.offset + v.bits ≤ off + sumBits vars
      ∧ 1 ≤ v.domain ∧ v.domain ≤ 2 ^ v.bits ∧ 2 ^ v.bits < 2 * v.domain
      ∧ v.labels.length ≤ v.domain := by
  induction vars generalizing off with
  | nil => cases hv
  | cons w rest ih =>
    obtain ⟨hoff, hdom, hle, hlt, hlab, hrest⟩ := layoutFrom_cons h
    rcases List.mem_cons.mp hv with rfl | hv
    · refine ⟨hoff.ge, ?_, hdom, hle, hlt, hlab⟩
      simp only [sumBits]
      omega
    · obtain ⟨h1, h2, h3, h4, h5, h6⟩ := ih hrest hv
      refine ⟨by omega, ?_, h3, h4, h5, h6⟩
      simp only [sumBits]
      omega

theorem layoutFrom_pairwise {vars : List Var} :
    ∀ off, layoutFrom off vars = true → ∀ v w : Var, v ∈ vars → w ∈ vars →
      v ≠ w → v.offset + v.bits ≤ w.offset ∨ w.offset + w.bits ≤ v.offset := by
  induction vars with
  | nil =>
    intro off _ v w hv
    cases hv
  | cons u rest ih =>
    intro off h v w hv hw hne
    obtain ⟨hoff, _, _, _, _, hrest⟩ := layoutFrom_cons h
    rcases List.mem_cons.mp hv with hv1 | hv1
    · rcases List.mem_cons.mp hw with hw1 | hw1
      · exact absurd (hv1.trans hw1.symm) hne
      · left
        have hb := (layoutFrom_mem_bounds hrest hw1).1
        rw [hv1]
        omega
    · rcases List.mem_cons.mp hw with hw1 | hw1
      · right
        have hb := (layoutFrom_mem_bounds hrest hv1).1
        rw [hw1]
        omega
      · exact ih (off + u.bits) hrest v w hv1 hw1 hne

/-- Writing an in-domain raw value into a declared field keeps the whole
state in-domain. -/
theorem setRaw_preserves_valid {b : Builder} (hlay : layoutOK b = true)
    {v : Var} (hv : v ∈ b.vars) {val : Nat} (hval : val % 2 ^ v.bits < v.domain)
    {s : Nat} (hs : isValidEncoding b s = true) :
    isValidEncoding b (setRaw s v val) = true := by
  have hfrom : layoutFrom 0 b.vars = true := by
    simp only [layoutOK, Bool.and_eq_true] at hlay
    exact hlay.1
  simp only [isValidEncoding, List.all_eq_true, decide_eq_true_eq] at hs ⊢
  intro w hw
  by_cases hvw : w = v
  · subst hvw
    rw [getRaw_setRaw_self]
    exact hval
  · rcases layoutFrom_pairwise 0 hfrom w v hw hv hvw with hc | hc
    · rw [getRaw_setRaw_of_le_offset _ _ _ _ hc]
      exact hs w hw
    · rw [getRaw_setRaw_of_ge_end _ _ _ _ hc]
      exact hs w hw

/-- Every declared field lies inside the packed width. -/
theorem layout_field_in_width {b : Builder} (hlay : layoutOK b = true)
    {v : Var} (hv : v ∈ b.vars) : v.offset + v.bits ≤ b.totalBits := by
  simp only [layoutOK, Bool.and_eq_true, beq_iff_eq] at hlay
  have := (layoutFrom_mem_bounds hlay.1 hv).2.1
  omega

/-! The clamp loop: it saturates each declared field at `domain - 1` and
touches nothing else. -/

/-- `clampVars` over variables whose fields all start at or above `off`
leaves any field ending at or below `off` unchanged. -/
theorem clampVars_getRaw_below {off : Nat} {vars : List Var}
    (h : layoutFrom off vars = true) {v : Var} (hend : v.offset + v.bits ≤ off)
    (s : Nat) : getRaw (clampVars vars s) v = getRaw s v := by
  induction vars generalizing off s with
  | nil => rfl
  | cons w rest ih =>
    obtain ⟨hoff, _, _, _, _, hrest⟩ := layoutFrom_cons h
    simp only [clampVars]
    rw [ih hrest (by omega)]
    split
    · exact getRaw_setRaw_of_le_offset _ _ _ _ (by omega)
    · rfl

/-- Per-variable effect of the clamp loop on a canonical layout. -/
theorem clampVars_getRaw {off : Nat} {vars : List Var}
    (h : layoutFrom off vars = true) {v : Var} (hv : v ∈ vars) (s : Nat) :
    getRaw (clampVars vars s) v
      = if v.domain - 1 < getRaw s v then v.domain - 1 else getRaw s v := by
  induction vars generalizing off s with
  | nil => cases hv
  | cons w rest ih =>
    obtain ⟨hoff, hdom, hle, _, _, hrest⟩ := layoutFrom_cons h
    rcases List.mem_cons.mp hv with rfl | hv
    · simp only [clampVars]
      rw [clampVars_getRaw_below hrest (by omega)]
      split
      · rw [getRaw_setRaw_self, Nat.mod_eq_of_lt (by omega)]
      · rfl
    · simp only [clampVars]
      have hbounds := layoutFrom_mem_bounds hrest hv
      have hside : getRaw (if w.domain - 1 < getRaw s w then setRaw s w (w.domain - 1) else s) v
          = getRaw s v := by
        split
        · exact getRaw_setRaw_of_ge_end _ _ _ _ (by omega)
        · rfl
      rw [ih hrest hv, hside]

/-- The clamp loop keeps the state inside the packed width. -/
theorem clampVars_lt {off B : Nat} {vars : List Var}
    (h : layoutFrom off vars = true) (hB : off + sumBits vars ≤ B)
    {s : Nat} (hs : s < 2 ^ B) : clampVars vars s < 2 ^ B := by
  induction vars generalizing off s with
  | nil => exact hs
  | cons w rest ih =>
    obtain ⟨hoff, _, _, _, _, hrest⟩ := layoutFrom_cons h
    simp only [sumBits] at hB
    simp only [clampVars]
    apply ih hrest (by omega)
    split
    · exact setRaw_lt _ _ _ _ hs (by omega)
    · exact hs

/-- The clamped state is in-domain: every field reads below its domain. -/
theorem clampState_valid {b : Builder} (hlay : layoutOK b = true) (s : Nat) :
    isValidEncoding b (clampState b s) = true := by
  have hfrom : layoutFrom 0 b.vars = true := by
    simp only [layoutOK, Bool.and_eq_true] at hlay
    exact hlay.1
  simp only [isValidEncoding, List.all_eq_true, decide_eq_true_eq]
  intro v hv
  have hdom := (layoutFrom_mem_bounds hfrom hv).2.2.1
  rw [clampState, clampVars_getRaw hfrom hv]
  split <;> omega

/-- The clamped state stays inside the packed width. -/
theorem clampState_lt {b : Builder} (hlay : layoutOK b = true) {s : Nat}
    (hs : s < packedCount b) : clampState b s < packedCount b := by
  simp only [layoutOK, Bool.and_eq_true, beq_iff_eq] at hlay
  exact clampVars_lt hlay.1 (by omega) hs

/-! The repair iteration: facts about `nfRun`, `nfEntry` and `nfFun`. -/

/-- A successful repair iteration terminates on a state where every
invariant holds. -/
theorem nfRun_some_holds {b : Builder} {bound : Nat} :
    ∀ fuel s depth seen t d, nfRun b bound fuel s depth seen = some (t, d) →
      allInvariantsHold b t = true := by
  intro fuel
  induction fuel with
  | zero =>
    intro s depth seen t d h
    simp [nfRun] at h
  | succ n ih =>
    intro s depth seen t d h
    rw [nfRun] at h
    by_cases hh : allInvariantsHold b s = true
    · rw [if_pos hh] at h
      cases h
      exact hh
    · rw [if_neg hh] at h
      split at h
      · cases h
      · exact ih _ _ _ _ _ h

/-- Any property preserved by `applyFirstRepair` transfers from the start
of a successful repair iteration to its terminal state. -/
theorem nfRun_some_pres {b : Builder} {bound : Nat} (P : Nat → Prop)
    (hstep : ∀ s, P s → P (applyFirstRepair b s)) :
    ∀ fuel s depth seen t d, nfRun b bound fuel s depth seen = some (t, d) →
      P s → P t := by
  intro fuel
  induction fuel with
  | zero =>
    intro s depth seen t d h
    simp [nfRun] at h
  | succ n ih =>
    intro s depth seen t d h hs
    rw [nfRun] at h
    by_cases hh : allInvariantsHold b s = true
    · rw [if_pos hh] at h
      cases h
      exact hs
    · rw [if_neg hh] at h
      split at h
      · cases h
      · exact ih _ _ _ _ _ h (hstep s hs)

/-- On a state where every invariant already holds, the iteration stops
immediately. -/
theorem nfRun_of_holds {b : Builder} {bound : Nat} (fuel s depth : Nat) (seen : List Nat)
    (h : allInvariantsHold b s = true) :
    nfRun b bound (fuel + 1) s depth seen = some (s, depth) := by
  rw [nfRun, if_pos h]

/-- An in-domain state satisfying every invariant is its own normal form. -/
theorem nfEntry_of_holds {b : Builder} {i : Nat} (hval : isValidEncoding b i = true)
    (hh : allInvariantsHold b i = true) : nfEntry b i = some i := by
  unfold nfEntry
  rw [if_pos hval]
  rw [show stateCount b + 2 = (stateCount b + 1) + 1 from rfl]
  rw [nfRun_of_holds _ _ _ _ hh]
  rfl

theorem nfFun_of_holds {b : Builder} {i : Nat} (hval : isValidEncoding b i = true)
    (hh : allInvariantsHold b i = true) : nfFun b i = i := by
  rw [nfFun, nfEntry_of_holds hval hh]
  rfl

/-- `NF` is the identity on out-of-domain ids. -/
theorem nfFun_invalid {b : Builder} {i : Nat} (h : isValidEncoding b i = false) :
    nfFun b i = i := by
  rw [nfFun, nfEntry, if_neg (by simp [h])]
  rfl

/-- Idempotence of the normal-form function. -/
theorem nfFun_idem (b : Builder) (i : Nat) : nfFun b (nfFun b i) = nfFun b i := by
  by_cases hval : isValidEncoding b i = true
  · have hfi : nfFun b i
        = ((nfRun b (stateCount b) (stateCount b + 2) i 0 [i]).map Prod.fst).getD i := by
      rw [nfFun, nfEntry, if_pos hval]
    cases hrun : nfRun b (stateCount b) (stateCount b + 2) i 0 [i] with
    | none =>
      have hid : nfFun b i = i := by rw [hfi, hrun]; rfl
      rw [hid]
      exact hid
    | some td =>
      obtain ⟨t, d⟩ := td
      have hfi2 : nfFun b i = t := by rw [hfi, hrun]; rfl
      rw [hfi2]
      have hh : allInvariantsHold b t = true := nfRun_some_holds _ _ _ _ _ _ hrun
      by_cases h2 : isValidEncoding b t = true
      · exact nfFun_of_holds h2 hh
      · exact nfFun_invalid (by simpa using h2)
  · have h := nfFun_invalid (by simpa using hval)
    rw [h]
    exact h

/-- What WFC success says about one in-domain id. -/
theorem wfcOK_run {b : Builder} (h : wfcOK b = true) {i : Nat} (hi : i < packedCount b)
    (hval : isValidEncoding b i = true) :
    ∃ t d, nfRun b (stateCount b) (stateCount b + 2) i 0 [i] = some (t, d)
      ∧ nfFun b i = t := by
  have h1 := List.all_eq_true.mp h i (List.mem_range.mpr hi)
  rw [nfEntry, if_pos hval] at h1
  cases hrun : nfRun b (stateCount b) (stateCount b + 2) i 0 [i] with
  | none => rw [hrun] at h1; simp at h1
  | some td =>
    obtain ⟨t, d⟩ := td
    refine ⟨t, d, rfl, ?_⟩
    rw [nfFun, nfEntry, if_pos hval, hrun]
    rfl

/-- The post-pass of `computeNormalForms` can never fail: a valid state is
always recorded as its own normal form. -/
theorem postPassOK_always (b : Builder) : postPassOK b = true := by
  rw [postPassOK, List.all_eq_true]
  intro i _
  by_cases h1 : isValidEncoding b i = true
  · by_cases h2 : allInvariantsHold b i = true
    · simp [h1, h2, nfFun_of_holds h1 h2]
    · simp [h2]
  · simp [h1]

/-! Remaining infrastructure: the repair scheduler, the CC check, the
event dictionary and the footprint fold. -/

/-- One event application is either the effect's result or (guard false)
the state itself. -/
theorem applyEvent_cases (ev : EventDef) (s : Nat) :
    applyEvent ev s = ev.effect s ∨ applyEvent ev s = s := by
  unfold applyEvent
  cases ev.guard with
  | none => exact Or.inl rfl
  | some g =>
    by_cases hgs : g s = true
    · exact Or.inl (by simp [hgs])
    · exact Or.inr (by simp [hgs])

/-- A property preserved by every declared repair (restricted to states
satisfying it) is preserved by one step of the priority scheduler. -/
theorem firstRepair_pres (P : Nat → Prop) :
    ∀ invs : List InvariantDef, (∀ inv ∈ invs, ∀ s, P s → P (inv.repair s)) →
      ∀ s, P s → P (firstRepair invs s) := by
  intro invs
  induction invs with
  | nil =>
    intro _ s hs
    exact hs
  | cons inv rest ih =>
    intro h s hs
    rw [firstRepair]
    split
    · exact ih (fun i hi => h i (List.mem_cons_of_mem _ hi)) s hs
    · exact h inv (List.mem_cons_self _ _) s hs

/-- What CC success says about a pair that was not discharged by
disjointness, at one in-domain state. -/
theorem ccOK_brute {b : Builder} (h : ccOK b = true) {i j : Nat}
    (hp : (i, j) ∈ pairsToCheck b) (hnd : eventsDisjoint b i j = false)
    {s : Nat} (hs : s < packedCount b) (hval : isValidEncoding b s = true) :
    stepFun b j (stepFun b i s) = stepFun b i (stepFun b j s) := by
  have h1 := List.all_eq_true.mp h _ hp
  simp only [hnd, Bool.false_or] at h1
  have h2 := List.all_eq_true.mp h1 s (List.mem_range.mpr hs)
  simpa [hval] using h2

/-- The event dictionary lookup fails exactly when no declared event
carries the name. -/
theorem eventIndexGo_eq_none {name : String} :
    ∀ (l : List EventDef) (i : Nat) (acc : Option Nat),
      (eventIndexGo name l i acc = none ↔ acc = none ∧ ∀ ev ∈ l, ev.name ≠ name) := by
  intro l
  induction l with
  | nil =>
    intro i acc
    simp [eventIndexGo]
  | cons ev rest ih =>
    intro i acc
    rw [eventIndexGo, ih]
    by_cases hn : ev.name = name
    · simp [hn]
    · simp [hn]

/-- Membership in the footprint fold is monotone in the accumulator. -/
theorem fpFold_mono (w : List Nat) :
    ∀ (l : List InvariantDef) (acc : List Nat) (v : Nat), v ∈ acc →
      v ∈ l.foldl
        (fun fp inv =>
          if inv.footprint.any (fun vi => w.contains vi) then fp ++ inv.footprint else fp)
        acc := by
  intro l
  induction l with
  | nil =>
    intro acc v hv
    exact hv
  | cons inv rest ih =>
    intro acc v hv
    rw [List.foldl_cons]
    apply ih
    split
    · exact List.mem_append_left _ hv
    · exact hv

/-- The footprint of any overlapping invariant lands in the fold. -/
theorem fpFold_mem (w : List Nat) :
    ∀ (l : List InvariantDef) (acc : List Nat) (inv : InvariantDef), inv ∈ l →
      inv.footprint.any (fun vi => w.contains vi) = true →
      ∀ v ∈ inv.footprint,
        v ∈ l.foldl
          (fun fp inv' =>
            if inv'.footprint.any (fun vi => w.contains vi) then fp ++ inv'.footprint else fp)
          acc := by
  intro l
  induction l with
  | nil =>
    intro acc inv hinv
    cases hinv
  | cons inv0 rest ih =>
    intro acc inv hinv hov v hv
    rw [List.foldl_cons]
    rcases List.mem_cons.mp hinv with rfl | hmem
    · apply fpFold_mono
      rw [if_pos hov]
      exact List.mem_append_right _ hv
    · exact ih _ inv hmem hov v hv

/-- A successful label scan returns an index below the end of the list. -/
theorem enumIndexGo_lt {val : String} :
    ∀ (l : List String) (i idx : Nat), enumIndexGo val l i = some idx →
      idx < i + l.length := by
  intro l
  induction l with
  | nil =>
    intro i idx h
    simp [enumIndexGo] at h
  | cons a rest ih =>
    intro i idx h
    rw [enumIndexGo] at h
    split at h
    · cases h
      simp
    · have := ih (i + 1) idx h
      simp only [List.length_cons]
      omega

/-- The footprint fold over an empty write set adds nothing. -/
theorem fpFold_nil_writes :
    ∀ (l : List InvariantDef) (acc : List Nat),
      l.foldl
        (fun fp inv =>
          if inv.footprint.any (fun vi => ([] : List Nat).contains vi) then fp ++ inv.footprint
          else fp) acc = acc := by
  intro l
  induction l with
  | nil =>
    intro acc
    rfl
  | cons inv rest ih =>
    intro acc
    rw [List.foldl_cons]
    have hc : (inv.footprint.any fun vi => ([] : List Nat).contains vi) = false := by
      simp
    rw [hc]
    exact ih acc

/-- With no declared events, every influence set is empty. -/
theorem eventFootprint_empty_events {b : Builder} (hev : b.events = []) (ei : Nat) :
    eventFootprint b ei = [] := by
  unfold eventFootprint
  rw [hev]
  exact fpFold_nil_writes _ _

/-! Claim theorems. -/

/-- C1, counterexample: in `B1` (one int variable, two constant-writing
events, no invariants) Build succeeds, the pair (0, 1) is selected in
all-pairs mode and discharged by the disjointness rule, state 0 is
in-domain and valid, yet the two step orderings give different results —
so commutation does not extend to discharged pairs. -/
theorem c1_discharged_pair_no_commute :
    buildOK B1 = true ∧ (0, 1) ∈ pairsToCheck B1 ∧
    isValidEncoding B1 0 = true ∧ allInvariantsHold B1 0 = true ∧
    eventsDisjoint B1 0 1 = true ∧
    stepFun B1 1 (stepFun B1 0 0) ≠ stepFun B1 0 (stepFun B1 1 0) := by
  decide

/-- C1, amended: after Build succeeds, STEP[e2][STEP[e1][s]] =
STEP[e1][STEP[e2][s]] holds for every selected pair that was checked by
brute force and every in-domain valid state; pairs discharged by the
footprint-disjointness rule carry no such guarantee. -/
theorem c1_checked_pairs_commute (b : Builder) (hbuild : buildOK b = true)
    (i j : Nat) (hp : (i, j) ∈ pairsToCheck b) (hnd : eventsDisjoint b i j = false)
    (s : Nat) (hs : s < packedCount b) (hval : isValidEncoding b s = true)
    (_hinv : allInvariantsHold b s = true) :
    stepFun b j (stepFun b i s) = stepFun b i (stepFun b j s) := by
  have hcc : ccOK b = true := by
    simp only [buildOK, Bool.and_eq_true] at hbuild
    exact hbuild.2
  exact ccOK_brute hcc hp hnd hs hval

/-- C1, witness: the amended theorem applied to the brute-forced pair of
`B2` at the valid state 0. -/
theorem c1_checked_pairs_commute_witness :
    buildOK B2 = true ∧ (0, 1) ∈ pairsToCheck B2 ∧ eventsDisjoint B2 0 1 = false ∧
    0 < packedCount B2 ∧ isValidEncoding B2 0 = true ∧
    allInvariantsHold B2 0 = true ∧
    stepFun B2 1 (stepFun B2 0 0) = stepFun B2 0 (stepFun B2 1 0) :=
  ⟨by decide, by decide, by decide, by decide, by decide, by decide,
    c1_checked_pairs_commute B2 (by decide) 0 1 (by decide) (by decide) 0 (by decide)
      (by decide) (by decide)⟩

/-- C2, counterexample: in `B1`, event 0 writes variable 0, but its
computed influence set is the empty list — the write set is not included
when no invariant's footprint overlaps it. -/
theorem c2_writes_not_in_footprint :
    0 ∈ (B1.events.getD 0 default).writes ∧ 0 ∉ eventFootprint B1 0 := by
  decide

/-- C2, amended: the influence set F(e) contains the full footprint of
every invariant whose footprint overlaps e's write set (hence every
written variable watched by at least one invariant); a written variable
that no invariant's footprint mentions is omitted from F(e). -/
theorem c2_overlapping_footprints_included (b : Builder) (ei : Nat)
    (inv : InvariantDef) (hinv : inv ∈ b.invariants)
    (hov : inv.footprint.any
        (fun vi => ((b.events.getD ei default).writes).contains vi) = true)
    (v : Nat) (hv : v ∈ inv.footprint) : v ∈ eventFootprint b ei := by
  unfold eventFootprint
  exact fpFold_mem _ _ _ _ hinv hov v hv

/-- C2, witness: the amended theorem applied to `B2`, whose invariant
watches exactly the variable written by event 0. -/
theorem c2_overlapping_footprints_included_witness :
    B2inv ∈ B2.invariants ∧
    B2inv.footprint.any
      (fun vi => ((B2.events.getD 0 default).writes).contains vi) = true ∧
    0 ∈ B2inv.footprint ∧ 0 ∈ eventFootprint B2 0 :=
  ⟨List.mem_cons_self _ _, by decide, by decide,
    c2_overlapping_footprints_included B2 0 B2inv (List.mem_cons_self _ _) (by decide)
      0 (by decide)⟩

/-- C3, counterexample: in `B3` the two step orderings agree from every
in-domain state on which all invariants hold, and state 3 is in-domain but
invariant-violating — yet the CC phase fails and Build fails, because the
brute-force loop also compares invariant-violating in-domain states. -/
theorem c3_invalid_start_fails_build :
    (∀ s, s < packedCount B3 → isValidEncoding B3 s = true →
        allInvariantsHold B3 s = true →
        stepFun B3 1 (stepFun B3 0 s) = stepFun B3 0 (stepFun B3 1 s)) ∧
    isValidEncoding B3 3 = true ∧ allInvariantsHold B3 3 = false ∧
    sizeOK B3 = true ∧ wfcOK B3 = true ∧ ccOK B3 = false ∧ buildOK B3 = false := by
  decide

/-- C3, amended: the exhaustive CC check of a non-discharged pair skips
only out-of-domain starting states; every in-domain state is compared
whether or not the invariant checks hold on it, so after a successful
Build the two orderings agree from every in-domain start, and a mismatch
occurring only from an invariant-violating in-domain state makes Build
fail. -/
theorem c3_all_indomain_states_checked (b : Builder) (hbuild : buildOK b = true)
    (i j : Nat) (hp : (i, j) ∈ pairsToCheck b) (hnd : eventsDisjoint b i j = false)
    (s : Nat) (hs : s < packedCount b) (hval : isValidEncoding b s = true) :
    stepFun b j (stepFun b i s) = stepFun b i (stepFun b j s) := by
  have hcc : ccOK b = true := by
    simp only [buildOK, Bool.and_eq_true] at hbuild
    exact hbuild.2
  exact ccOK_brute hcc hp hnd hs hval

/-- C3, witness: the amended theorem applied to `B4` at state 3, which is
in-domain but violates the invariant. -/
theorem c3_all_indomain_states_checked_witness :
    buildOK B4 = true ∧ (0, 1) ∈ pairsToCheck B4 ∧ eventsDisjoint B4 0 1 = false ∧
    3 < packedCount B4 ∧ isValidEncoding B4 3 = true ∧
    allInvariantsHold B4 3 = false ∧
    stepFun B4 1 (stepFun B4 0 3) = stepFun B4 0 (stepFun B4 1 3) :=
  ⟨by decide, by decide, by decide, by decide, by decide, by decide,
    c3_all_indomain_states_checked B4 (by decide) 0 1 (by decide) (by decide) 3
      (by decide) (by decide)⟩

/-- C4 (confirmed): after a successful Build on a canonical layout,
STEP[e][s] from an in-domain valid state is again inside the packed width,
in-domain, satisfies every invariant, and `Machine.IsValid` returns true
on it.  The `hrep`/`heff` hypotheses record what the public State API
guarantees for every closure expressible through it (`Set`, `SetBool` and
`SetInt` keep a state inside the packed width and in-domain). -/
theorem c4_step_lands_valid (b : Builder) (hlay : layoutOK b = true)
    (hbuild : buildOK b = true)
    (hrep : ∀ inv ∈ b.invariants, ∀ s, s < packedCount b → isValidEncoding b s = true →
        inv.repair s < packedCount b ∧ isValidEncoding b (inv.repair s) = true)
    (heff : ∀ ev ∈ b.events, ∀ s, s < packedCount b → isValidEncoding b s = true →
        ev.effect s < packedCount b)
    (ei : Nat) (hei : ei < b.events.length)
    (s : Nat) (hs : s < packedCount b) (hval : isValidEncoding b s = true)
    (_hinv : allInvariantsHold b s = true) :
    stepFun b ei s < packedCount b ∧ isValidEncoding b (stepFun b ei s) = true ∧
      allInvariantsHold b (stepFun b ei s) = true ∧
      MachineIsValid b (stepFun b ei s) = true := by
  have hwfc : wfcOK b = true := by
    simp only [buildOK, Bool.and_eq_true] at hbuild
    exact hbuild.1.1.2
  have hevmem : b.events.getD ei default ∈ b.events := by
    rw [List.getD_eq_getElem?_getD, List.getElem?_eq_getElem hei]
    exact List.getElem_mem hei
  have happ : applyEvent (b.events.getD ei default) s < packedCount b := by
    rcases applyEvent_cases (b.events.getD ei default) s with h | h
    · rw [h]
      exact heff _ hevmem s hs hval
    · rw [h]
      exact hs
  have hc1 : clampState b (applyEvent (b.events.getD ei default) s) < packedCount b :=
    clampState_lt hlay happ
  have hc2 : isValidEncoding b (clampState b (applyEvent (b.events.getD ei default) s))
      = true := clampState_valid hlay _
  obtain ⟨t, d, hrun, hnf⟩ := wfcOK_run hwfc hc1 hc2
  have hth : allInvariantsHold b t = true := nfRun_some_holds _ _ _ _ _ _ hrun
  have hrep2 : ∀ inv ∈ b.invariants, ∀ u,
      (fun u => u < packedCount b ∧ isValidEncoding b u = true) u →
      (fun u => u < packedCount b ∧ isValidEncoding b u = true) (inv.repair u) := by
    intro inv hi u hu
    exact hrep inv hi u hu.1 hu.2
  have hstep : ∀ u, (fun u => u < packedCount b ∧ isValidEncoding b u = true) u →
      (fun u => u < packedCount b ∧ isValidEncoding b u = true) (applyFirstRepair b u) := by
    intro u hu
    exact firstRepair_pres (fun u => u < packedCount b ∧ isValidEncoding b u = true)
      b.invariants hrep2 u hu
  have hpres := nfRun_some_pres (fun u => u < packedCount b ∧ isValidEncoding b u = true)
    hstep _ _ _ _ _ _ hrun ⟨hc1, hc2⟩
  have hstep_eq : stepFun b ei s = t := by
    rw [stepFun, if_pos hval]
    exact hnf
  rw [hstep_eq]
  refine ⟨hpres.1, hpres.2, hth, ?_⟩
  rw [MachineIsValid, nfFun_of_holds hpres.2 hth]
  exact beq_self_eq_true t

/-- C4, witness: the theorem applied to `B4`, event 0, state 0. -/
theorem c4_step_lands_valid_witness :
    layoutOK B4 = true ∧ buildOK B4 = true ∧
    (∀ inv ∈ B4.invariants, ∀ s, s < packedCount B4 → isValidEncoding B4 s = true →
        inv.repair s < packedCount B4 ∧ isValidEncoding B4 (inv.repair s) = true) ∧
    (∀ ev ∈ B4.events, ∀ s, s < packedCount B4 → isValidEncoding B4 s = true →
        ev.effect s < packedCount B4) ∧
    (stepFun B4 0 0 < packedCount B4 ∧ isValidEncoding B4 (stepFun B4 0 0) = true ∧
      allInvariantsHold B4 (stepFun B4 0 0) = true ∧
      MachineIsValid B4 (stepFun B4 0 0) = true) :=
  ⟨by decide, by decide, by decide, by decide,
    c4_step_lands_valid B4 (by decide) (by decide) (by decide) (by decide) 0 (by decide)
      0 (by decide) (by decide) (by decide)⟩

/-- C5 (confirmed): after a successful Build, normalization is idempotent
on every id of the padded address space, and NF is the identity on
out-of-domain ids. -/
theorem c5_nf_idempotent (b : Builder) (_hbuild : buildOK b = true)
    (i : Nat) (_hi : i < packedCount b) :
    nfFun b (nfFun b i) = nfFun b i ∧ (isValidEncoding b i = false → nfFun b i = i) :=
  ⟨nfFun_idem b i, fun h => nfFun_invalid h⟩

/-- C5, witness: the theorem applied to `B4` at the invalid in-domain
state 3 (whose normal form is 0). -/
theorem c5_nf_idempotent_witness :
    buildOK B4 = true ∧ 3 < packedCount B4 ∧ nfFun B4 (nfFun B4 3) = nfFun B4 3 :=
  ⟨by decide, by decide, (c5_nf_idempotent B4 (by decide) 3 (by decide)).1⟩

/-- C6 (confirmed): after a successful Build, repair is the identity on
every in-domain state satisfying all invariant checks (NF[s] = s), and
`Machine.IsValid` returns true exactly when NF[s.id] = s.id. -/
theorem c6_repair_identity_and_isvalid (b : Builder) (_hbuild : buildOK b = true) :
    (∀ s, s < packedCount b → isValidEncoding b s = true →
        allInvariantsHold b s = true → nfFun b s = s) ∧
    (∀ s, MachineIsValid b s = true ↔ nfFun b s = s) := by
  constructor
  · intro s _ hval hh
    exact nfFun_of_holds hval hh
  · intro s
    rw [MachineIsValid]
    exact beq_iff_eq

/-- C6, witness: the theorem applied to `B4` at the valid state 2 and the
invalid state 3. -/
theorem c6_repair_identity_and_isvalid_witness :
    buildOK B4 = true ∧ nfFun B4 2 = 2 ∧
    (MachineIsValid B4 3 = true ↔ nfFun B4 3 = 3) :=
  ⟨by decide,
    (c6_repair_identity_and_isvalid B4 (by decide)).1 2 (by decide) (by decide) (by decide),
    (c6_repair_identity_and_isvalid B4 (by decide)).2 3⟩

/-- C7 (confirmed): when the step table is built, the post-state of the
event effect is clamped per variable before normalization: on a canonical
layout every raw field value exceeding domain − 1 is reset to domain − 1
and lower values pass through unchanged — saturation at the top of the
declared domain, never a wrap modulo 2^w — and STEP[e][i] is
NF(clamp(apply_event(e, i))) on every in-domain id. -/
theorem c7_clamp_saturates (b : Builder) (hlay : layoutOK b = true)
    (v : Var) (hv : v ∈ b.vars) (s : Nat) :
    getRaw (clampState b s) v
        = (if v.domain - 1 < getRaw s v then v.domain - 1 else getRaw s v) ∧
    getRaw (clampState b s) v < v.domain ∧
    (∀ ei i, isValidEncoding b i = true →
        stepFun b ei i
          = nfFun b (clampState b (applyEvent (b.events.getD ei default) i))) := by
  have hfrom : layoutFrom 0 b.vars = true := by
    simp only [layoutOK, Bool.and_eq_true] at hlay
    exact hlay.1
  have hdom := (layoutFrom_mem_bounds hfrom hv).2.2.1
  have hmain : getRaw (clampState b s) v
      = (if v.domain - 1 < getRaw s v then v.domain - 1 else getRaw s v) :=
    clampVars_getRaw hfrom hv s
  refine ⟨hmain, ?_, ?_⟩
  · rw [hmain]
    split <;> omega
  · intro ei i hi
    rw [stepFun, if_pos hi]

/-- C7, witness: the theorem applied to `B7` at the padded id 3, whose raw
enum code 3 exceeds domain − 1 = 2 and is clamped to 2. -/
theorem c7_clamp_saturates_witness :
    layoutOK B7 = true ∧ eVar ∈ B7.vars ∧ getRaw 3 eVar = 3 ∧
    getRaw (clampState B7 3) eVar
      = (if eVar.domain - 1 < getRaw 3 eVar then eVar.domain - 1 else getRaw 3 eVar) ∧
    getRaw (clampState B7 3) eVar < eVar.domain :=
  ⟨by decide, by decide, by decide,
    (c7_clamp_saturates B7 (by decide) eVar (by decide) 3).1,
    (c7_clamp_saturates B7 (by decide) eVar (by decide) 3).2.1⟩

/-- C8, counterexample: `B8`'s invariant has footprint {0} (variable `x`)
but its repair, run on the in-domain state 1 (x true, y false), changes
variable 1 (`y`); the declaration is nevertheless accepted and Build
succeeds, producing an artifact — not a bad-declaration error. -/
theorem c8_out_of_footprint_repair_accepted :
    buildOK B8 = true ∧ B8inv.footprint = [0] ∧ yBool.index = 1 ∧
    isValidEncoding B8 1 = true ∧ getRaw (B8inv.repair 1) yBool ≠ getRaw 1 yBool := by
  decide

/-- C8, amended: a repair that modifies variables outside the declared
footprint is never detected: `InvariantBuilder.Add` accepts any pair of
present check/repair closures regardless of their behaviour, Build runs no
footprint-confinement check, and such a declaration builds successfully —
the artifact even applies the out-of-footprint write when normalizing
(NF moves state 1 to state 2, setting `y`). -/
theorem c8_no_footprint_confinement_check :
    (∀ (nm : String) (fp : List Nat) (c : Nat → Bool) (r : Nat → Nat),
        invariantAddOK ⟨nm, fp, some c, some r⟩ = true) ∧
    buildOK B8 = true ∧ MachineNormalize B8 1 = 2 :=
  ⟨fun _ _ _ _ => rfl, by decide, by decide⟩

/-- C9 (confirmed): Apply fails exactly on names absent from the events
dictionary (an error of the call, not of the artifact); on a known name it
returns the step-table row of the name's index; and a declaration with an
empty event set passes CC vacuously, so it builds successfully whenever
the size and WFC phases pass, yielding an artifact on which every Apply
call is an unknown-event error. -/
theorem c9_apply_unknown_event (b : Builder) :
    (∀ s name, MachineApply b s name = none ↔ ∀ ev ∈ b.events, ev.name ≠ name) ∧
    (∀ s name ei, eventIndexOf b name = some ei →
        MachineApply b s name = some (stepFun b ei s)) ∧
    (b.events = [] → sizeOK b = true → wfcOK b = true →
        buildOK b = true ∧ ∀ s name, MachineApply b s name = none) := by
  have hnone : ∀ name, eventIndexOf b name = none ↔ ∀ ev ∈ b.events, ev.name ≠ name := by
    intro name
    rw [eventIndexOf, eventIndexGo_eq_none]
    simp
  refine ⟨?_, ?_, ?_⟩
  · intro s name
    rw [MachineApply, Option.map_eq_none']
    exact hnone name
  · intro s name ei h
    rw [MachineApply, h]
    rfl
  · intro hev hsize hwfc
    have hcc : ccOK b = true := by
      rw [ccOK, List.all_eq_true]
      intro p _
      have hd : eventsDisjoint b p.1 p.2 = true := by
        rw [eventsDisjoint, eventFootprint_empty_events hev]
        rfl
      rw [hd]
      rfl
    constructor
    · rw [buildOK, hsize, hwfc, postPassOK_always, hcc]
      rfl
    · intro s name
      rw [MachineApply, Option.map_eq_none', hnone]
      intro ev hmem
      rw [hev] at hmem
      cases hmem

/-- C9, witness: the theorem applied to `E9` (no events) and the name
"anything" at state 0. -/
theorem c9_apply_unknown_event_witness :
    E9.events = [] ∧ sizeOK E9 = true ∧ wfcOK E9 = true ∧
    buildOK E9 = true ∧ MachineApply E9 0 "anything" = none :=
  ⟨rfl, by decide, by decide,
    ((c9_apply_unknown_event E9).2.2 rfl (by decide) (by decide)).1,
    ((c9_apply_unknown_event E9).2.2 rfl (by decide) (by decide)).2 0 "anything"⟩

/-- C10 (confirmed): at the public State interface, `SetInt` clamps its
argument into the declared range instead of requiring it: the stored field
decodes back to `max min (min x max)`, its raw value is in-domain, and on
a canonical layout each of `SetInt`, `SetBool` and `Set` (enum) maps an
in-domain state to an in-domain state. -/
theorem c10_setint_clamps (b : Builder) (hlay : layoutOK b = true)
    (v : Var) (hv : v ∈ b.vars) (s : Nat) (hs : isValidEncoding b s = true) (x : Int) :
    GetInt (SetInt s v x) v = max v.min (min x (v.min + (v.domain : Int) - 1)) ∧
    getRaw (SetInt s v x) v < v.domain ∧
    isValidEncoding b (SetInt s v x) = true ∧
    (∀ bl : Bool, isValidEncoding b (SetBool s v bl) = true) ∧
    (∀ lab s2, SetEnum s v lab = some s2 → isValidEncoding b s2 = true) := by
  have hfrom : layoutFrom 0 b.vars = true := by
    simp only [layoutOK, Bool.and_eq_true] at hlay
    exact hlay.1
  obtain ⟨-, -, hdom1, hdom2, hbits, hlab⟩ := layoutFrom_mem_bounds hfrom hv
  have hsetint : ∃ n : Nat, SetInt s v x = setRaw s v n
      ∧ (n : Int) + v.min = max v.min (min x (v.min + (v.domain : Int) - 1))
      ∧ n < v.domain := by
    refine ⟨((if (if x < v.min then v.min else x) > v.min + (v.domain : Int) - 1
        then v.min + (v.domain : Int) - 1
        else if x < v.min then v.min else x) - v.min).toNat, rfl, ?_, ?_⟩
    · have hd : (1 : Int) ≤ (v.domain : Int) := by exact_mod_cast hdom1
      split_ifs <;> omega
    · have hd : (1 : Int) ≤ (v.domain : Int) := by exact_mod_cast hdom1
      have : ((if (if x < v.min then v.min else x) > v.min + (v.domain : Int) - 1
          then v.min + (v.domain : Int) - 1
          else if x < v.min then v.min else x) - v.min) ≤ (v.domain : Int) - 1 := by
        split_ifs <;> omega
      omega
  obtain ⟨n, heq, hdec, hlt⟩ := hsetint
  have hraw : getRaw (SetInt s v x) v = n := by
    rw [heq, getRaw_setRaw_self]
    exact Nat.mod_eq_of_lt (by omega)
  refine ⟨?_, ?_, ?_, ?_, ?_⟩
  · rw [GetInt, hraw]
    exact hdec
  · rw [hraw]
    exact hlt
  · rw [heq]
    exact setRaw_preserves_valid hlay hv (by rw [Nat.mod_eq_of_lt (by omega)]; exact hlt) hs
  · intro bl
    have hb1 : 1 % 2 ^ v.bits < v.domain := by
      cases hbz : v.bits with
      | zero =>
        simpa using hdom1
      | succ m =>
        have h2 : 2 ≤ 2 ^ v.bits := by
          rw [hbz]
          calc 2 = 2 ^ 1 := rfl
            _ ≤ 2 ^ (m + 1) := Nat.pow_le_pow_right (by norm_num) (by omega)
        rw [hbz] at h2 hdom2 hbits
        have h3 : 1 % 2 ^ (m + 1) = 1 := Nat.mod_eq_of_lt (by omega)
        rw [h3]
        omega
    have hb0 : 0 % 2 ^ v.bits < v.domain := by
      rw [Nat.zero_mod]
      omega
    rw [SetBool]
    split
    · exact setRaw_preserves_valid hlay hv hb1 hs
    · exact setRaw_preserves_valid hlay hv hb0 hs
  · intro lab s2 h
    rw [SetEnum] at h
    cases hidx : enumIndex v lab with
    | none =>
      rw [hidx] at h
      cases h
    | some idx =>
      rw [hidx] at h
      cases h
      have hlen : idx < v.labels.length := by
        have := enumIndexGo_lt v.labels 0 idx hidx
        omega
      exact setRaw_preserves_valid hlay hv
        (by rw [Nat.mod_eq_of_lt (by omega)]; omega) hs

/-- C10, witness: the theorem applied to `B1`'s int variable x ∈ [0, 3] at
state 0 with the out-of-range argument 7, which is stored as 3. -/
theorem c10_setint_clamps_witness :
    layoutOK B1 = true ∧ xVar ∈ B1.vars ∧ isValidEncoding B1 0 = true ∧
    GetInt (SetInt 0 xVar 7) xVar
      = max xVar.min (min 7 (xVar.min + (xVar.domain : Int) - 1)) ∧
    getRaw (SetInt 0 xVar 7) xVar < xVar.domain ∧
    isValidEncoding B1 (SetInt 0 xVar 7) = true :=
  ⟨by decide, by decide, by decide,
    (c10_setint_clamps B1 (by decide) xVar (by decide) 0 (by decide) 7).1,
    (c10_setint_clamps B1 (by decide) xVar (by decide) 0 (by decide) 7).2.1,
    (c10_setint_clamps B1 (by decide) xVar (by decide) 0 (by decide) 7).2.2.1⟩

end GSM

